import Mathlib

/-!
Shallow embedding of the Knitgraph repository (src/Knit_Graph.py and
src/generate_knit_graphs.py).

Python dictionaries are embedded as insertion-ordered association lists with
unique keys (`findAssoc` / `updateAssoc` mirror `d[k]` reads and `d[k] = v`
writes, which keep the position of an existing key).  The `networkx.DiGraph`
owned by `Knit_Graph` is embedded as an insertion-ordered node list (node id
paired with its `loop` attribute) and an insertion-ordered edge list keyed by
the (parent, child) pair.  In Python the `loop` node attribute and the
`loops` dictionary alias the same mutable `Loop` object, so a single store
`nodes` represents both; likewise `yarns` is the single authority for each
`Yarn` object, and operations that mutate a yarn update its registry entry.

`Loop`, `Yarn` and `Pull_Direction` are code of this repository that is not
under src/ (only their callers are); they are modelled from the spec where
marked.  Exceptions (`assert` failures, `KeyError`, `AttributeError`) are
embedded as `Option`/`Except` results.
-/

def findAssoc {κ α : Type} [DecidableEq κ] (k : κ) : List (κ × α) → Option α
  | [] => none
  | (k', v) :: rest => if k' = k then some v else findAssoc k rest

def updateAssoc {κ α : Type} [DecidableEq κ] (k : κ) (v : α) : List (κ × α) → List (κ × α)
  | [] => [(k, v)]
  | (k', v') :: rest => if k' = k then (k, v) :: rest else (k', v') :: updateAssoc k v rest

/-- Python's `list.insert(i, x)` for a non-negative index: insert at `i`,
clamping to the end when `i` exceeds the length. -/
def insertAt {α : Type} : Nat → α → List α → List α
  | 0, a, l => a :: l
  | _ + 1, a, [] => [a]
  | n + 1, a, b :: l => b :: insertAt n a l

def exceptToOption {ε α : Type} : Except ε α → Option α
  | .ok a => some a
  | .error _ => none

/-- Modelled from the spec: `Pull_Direction` is "a two-valued direction
(front-to-back / back-to-front) with an `opposite()` operation". -/
inductive Pull_Direction
  | BtF
  | FtB
deriving DecidableEq

def Pull_Direction.opposite : Pull_Direction → Pull_Direction
  | .BtF => .FtB
  | .FtB => .BtF

/-- Modelled from the spec: a `Loop` is "an immutable identity (integer id)
plus a mutable ordered stack of parent loops and a back-reference to its
yarn".  Parent loops are recorded by their ids (all `Loop` objects with a
given id are the same object, so the id determines the loop). -/
structure Loop where
  loop_id : Nat
  yarn_id : String
  parent_loops : List Nat
deriving DecidableEq

/-- Modelled from the spec: `Loop` "supports push/insert of a parent at an
explicit stack position"; "if `stack_position` is `None`, the parent is
pushed to the top of the stack (last-inserted = outermost/most-recent
parent); otherwise it is inserted at the given index, shifting later
entries". -/
def Loop.add_parent_loop (l : Loop) (p : Nat) (stack_position : Option Nat) : Loop :=
  { l with parent_loops :=
      match stack_position with
      | none => l.parent_loops ++ [p]
      | some i => insertAt i p l.parent_loops }

/-- Modelled from the spec: a `Yarn` has an "id" and an "ordered sequence of
loop ids it carries (insertion order = strand order)". -/
structure Yarn where
  yarn_id : String
  loop_ids : List Nat
deriving DecidableEq

/-- Attributes stored on a stitch edge by `connect_loops`
(`pull_direction=..., depth=..., parent_offset=...`). -/
structure EdgeData where
  pull_direction : Pull_Direction
  depth : Int
  parent_offset : Int
deriving DecidableEq

/-- The not-found error kind of spec section 7: raised when an operation
references a loop id not present in the graph (the `assert` failures in
`connect_loops` and the `AttributeError` in `__getitem__`). -/
inductive KGError
  | loopNotFound (loop_id : Nat)
deriving DecidableEq

/-- `Course`: `loops_by_id_in_order` list and `loops_by_id` dict. -/
structure Course where
  loops_by_id_in_order : List Nat
  loops_by_id : List (Nat × Loop)
deriving DecidableEq

/-- `Course.add_loop`: asserts that no parent of `loop` is already a member
(`parent_loop not in self`, where `__contains__` tests the `loops_by_id`
keys), then records the loop in the dict and appends / inserts its id into
the order list.  The failed assertion is embedded as `none`. -/
def Course.add_loop (c : Course) (l : Loop) (index : Option Nat) : Option Course :=
  if l.parent_loops.any (fun p => (findAssoc p c.loops_by_id).isSome) then
    none
  else
    some { loops_by_id_in_order :=
             match index with
             | none => c.loops_by_id_in_order ++ [l.loop_id]
             | some i => insertAt i l.loop_id c.loops_by_id_in_order,
           loops_by_id := updateAssoc l.loop_id l c.loops_by_id }

/-- The `Knit_Graph` state: `graph` (nodes with their `loop` payload, and
stitch edges with their attributes), `last_loop_id`, and the `yarns`
registry.  `nodes` represents both the `networkx` node table and the
`loops` dictionary, which alias the same `Loop` objects. -/
structure Knit_Graph where
  nodes : List (Nat × Loop)
  edges : List ((Nat × Nat) × EdgeData)
  last_loop_id : Int
  yarns : List (String × Yarn)
deriving DecidableEq

def Knit_Graph.init : Knit_Graph :=
  { nodes := [], edges := [], last_loop_id := -1, yarns := [] }

/-- `__contains__` for an integer argument: `self.graph.has_node(item)`. -/
def Knit_Graph.hasNode (kg : Knit_Graph) (loop_id : Nat) : Bool :=
  (findAssoc loop_id kg.nodes).isSome

/-- `add_yarn`: `self.yarns[yarn.yarn_id] = yarn`. -/
def Knit_Graph.add_yarn (kg : Knit_Graph) (y : Yarn) : Knit_Graph :=
  { kg with yarns := updateAssoc y.yarn_id y kg.yarns }

/-- `add_loop`.  Line 94 adds the node with its payload.  Line 97's test
`loop.yarn not in self.yarns` compares a `Yarn` object against the dict's
string keys, so it is always true and `add_yarn(loop.yarn)` is always
called; when the loop's yarn is already registered, `loop.yarn` aliases the
registry entry, so the re-registration rewrites the same key with the same
value.  A loop whose yarn object is unknown to the graph never occurs in the
repository's flows and is outside the model (`none`).  Line 101 then tests
`loop not in self.yarns[loop.yarn.yarn_id]`; if the loop is not on its yarn,
line 102 indexes `self.yarns` with a `Yarn` object, which raises `KeyError`
(embedded as `none`; the node insertion of line 94 is not rolled back, which
the `Option` result abstracts away — no claim depends on that partial
state).  Otherwise `last_loop_id` is raised to the loop's id when exceeded
and the loop is stored in `loops` (the shared store). -/
def Knit_Graph.add_loop (kg : Knit_Graph) (l : Loop) : Option Knit_Graph :=
  let kg1 : Knit_Graph := { kg with nodes := updateAssoc l.loop_id l kg.nodes }
  match findAssoc l.yarn_id kg1.yarns with
  | none => none
  | some y =>
      let kg2 := kg1.add_yarn y
      if l.loop_id ∈ y.loop_ids then
        some { kg2 with last_loop_id :=
                 if (l.loop_id : Int) > kg2.last_loop_id then (l.loop_id : Int)
                 else kg2.last_loop_id }
      else none

/-- Modelled from the spec: `Yarn.add_loop_to_end` (not under src/) must
"mint a new loop and append it to this yarn's order, registering it into a
given graph" and return "the new id and loop"; ids are "monotonically
assigned at creation, never reused", with the graph "tracking the observed
maximum", so the minted id is `last_loop_id + 1`.  The minted loop starts
with an empty parent stack ("length 0 for cast-on loops").  All repository
flows register the yarn before minting, so an unregistered yarn id is
outside the model. -/
def Knit_Graph.add_loop_to_end (kg : Knit_Graph) (yid : String) :
    Option (Nat × Loop × Knit_Graph) :=
  match findAssoc yid kg.yarns with
  | none => none
  | some y =>
      let newId := (kg.last_loop_id + 1).toNat
      let l : Loop := ⟨newId, yid, []⟩
      let kg1 : Knit_Graph :=
        { kg with yarns := updateAssoc yid { y with loop_ids := y.loop_ids ++ [newId] } kg.yarns }
      (kg1.add_loop l).map (fun kg2 => (newId, l, kg2))

/-- `connect_loops`, statement by statement, returning the exception status
together with the state at the point the call finished or raised: the two
`assert` statements (lines 130–131) precede every mutation, so a failed
precondition returns the untouched graph; otherwise the edge is written
(line 136, `add_edge` overwrites the attributes of an existing edge) and the
parent is inserted into the child loop's parent stack (line 143). -/
def Knit_Graph.connect_loops_run (kg : Knit_Graph) (parent_loop_id child_loop_id : Nat)
    (pull_direction : Pull_Direction) (stack_position : Option Nat)
    (depth parent_offset : Int) : Except KGError Unit × Knit_Graph :=
  if ¬ kg.hasNode parent_loop_id then (.error (.loopNotFound parent_loop_id), kg)
  else if ¬ kg.hasNode child_loop_id then (.error (.loopNotFound child_loop_id), kg)
  else
    let kg1 : Knit_Graph :=
      { kg with edges := updateAssoc (parent_loop_id, child_loop_id)
                  ⟨pull_direction, depth, parent_offset⟩ kg.edges }
    match findAssoc child_loop_id kg1.nodes with
    | none => (.ok (), kg1)
    | some child_loop =>
        let updated := child_loop.add_parent_loop parent_loop_id stack_position
        (.ok (), { kg1 with nodes := updateAssoc child_loop_id updated kg1.nodes })

def Knit_Graph.connect_loops (kg : Knit_Graph) (parent_loop_id child_loop_id : Nat)
    (pull_direction : Pull_Direction) (stack_position : Option Nat)
    (depth parent_offset : Int) : Except KGError Knit_Graph :=
  match kg.connect_loops_run parent_loop_id child_loop_id pull_direction stack_position
      depth parent_offset with
  | (.ok _, kg') => .ok kg'
  | (.error e, _) => .error e

/-- `self.graph.predecessors(loop_id)`: parents of the edges whose child is
`loop_id`. -/
def Knit_Graph.predecessors (kg : Knit_Graph) (loop_id : Nat) : List Nat :=
  (kg.edges.filter (fun e => e.1.2 == loop_id)).map (fun e => e.1.1)

/-- `self.graph.successors(loop_id)`: children of the edges whose parent is
`loop_id`, in edge insertion order. -/
def Knit_Graph.successors (kg : Knit_Graph) (loop_id : Nat) : List Nat :=
  (kg.edges.filter (fun e => e.1.1 == loop_id)).map (fun e => e.1.2)

/-- `get_child_loop`: first successor in iteration order, or `None`. -/
def Knit_Graph.get_child_loop (kg : Knit_Graph) (loop_id : Nat) : Option Nat :=
  (kg.successors loop_id).head?

/-- `get_stitch_edge` without the optional property argument: the full edge
attribute mapping, or `None` when no such edge exists. -/
def Knit_Graph.get_stitch_edge (kg : Knit_Graph) (parent child : Nat) : Option EdgeData :=
  findAssoc (parent, child) kg.edges

/-- `__getitem__`: raises `AttributeError` (the spec's not-found kind) when
the id is not a node, else returns the node's `loop` payload. -/
def Knit_Graph.getItem (kg : Knit_Graph) (loop_id : Nat) : Except KGError Loop :=
  match findAssoc loop_id kg.nodes with
  | some l => .ok l
  | none => .error (.loopNotFound loop_id)

/-- `get_loop` delegates to `__getitem__`. -/
def Knit_Graph.get_loop (kg : Knit_Graph) (loop_id : Nat) : Except KGError Loop :=
  kg.getItem loop_id

/-- One iteration of the `get_courses` scan: if some predecessor of
`loop_id` is in the current course set, close the current course and open a
new one holding only `loop_id`; otherwise append `loop_id` to the current
course.  The state is (closed courses in index order, current course). -/
def scanStep (preds : Nat → List Nat) (s : List (List Nat) × List Nat) (loop_id : Nat) :
    List (List Nat) × List Nat :=
  if (preds loop_id).any (fun p => s.2.contains p) then (s.1 ++ [s.2], [loop_id])
  else (s.1, s.2 ++ [loop_id])

/-- The scan of `get_courses` over the sorted node ids, with the final open
course closed at the end: the per-course loop-id lists in course order. -/
def coursePartition (preds : Nat → List Nat) (ids : List Nat) : List (List Nat) :=
  let s := ids.foldl (scanStep preds) ([], [])
  s.1 ++ [s.2]

/-- The materialization loop of `get_courses` for one course: look each
recorded loop id up with `get_loop` and append it to the `Course`.  `none`
embeds a raised exception (a missing id or a failed `Course.add_loop`
assertion). -/
def Knit_Graph.buildCourse (kg : Knit_Graph) (part : List Nat) : Option Course :=
  part.foldlM (fun c loop_id =>
    (findAssoc loop_id kg.nodes).bind (fun l => c.add_loop l none)) ⟨[], []⟩

/-- `get_courses`: scan the node ids in ascending order, then materialize
one `Course` per recorded course index, in index order. -/
def Knit_Graph.get_courses (kg : Knit_Graph) : Option (List Course) :=
  (coursePartition kg.predecessors
      (List.insertionSort (· ≤ ·) (kg.nodes.map (fun e => e.1)))).mapM kg.buildCourse

/-- `cast_on` from src/generate_knit_graphs.py: a fresh graph and yarn
`"yarn"`, `width` loops minted onto it, returning the graph and `[*yarn]`. -/
def cast_on (width : Nat) : Option (Knit_Graph × List Nat) :=
  let kg0 := Knit_Graph.init.add_yarn ⟨"yarn", []⟩
  ((List.range width).foldlM
      (fun (kg : Knit_Graph) _ => (kg.add_loop_to_end "yarn").map (fun r => r.2.2)) kg0).bind
    (fun kg => (findAssoc "yarn" kg.yarns).map (fun y => (kg, y.loop_ids)))

/-- One row of `jersey_knit`: walk the previous course in reverse, mint a
new loop for each parent and connect them with `Pull_Direction.BtF`,
accumulating the new course in creation order. -/
def jerseyRow (kg : Knit_Graph) (last_course : List Nat) : Option (Knit_Graph × List Nat) :=
  last_course.reverse.foldlM
    (fun s parent_loop_id =>
      (s.1.add_loop_to_end "yarn").bind (fun r =>
        (exceptToOption (r.2.2.connect_loops parent_loop_id r.1 .BtF none 0 0)).map
          (fun kg2 => (kg2, s.2 ++ [r.1]))))
    (kg, ([] : List Nat))

/-- `jersey_knit` from src/generate_knit_graphs.py: cast on `width` loops,
then add `height - 1` plain rows. -/
def jersey_knit (width height : Nat) : Option Knit_Graph :=
  (cast_on width).bind (fun s =>
    ((List.range (height - 1)).foldlM (fun t _ => jerseyRow t.1 t.2) s).map (fun t => t.1))

/-- The data-model invariants of spec section 3 that hold for every graph
built through the construction surface: node ids are unique, each node's
payload carries that id, and a loop's parent stack only holds parents that
`connect_loops` recorded, i.e. graph predecessors of the node. -/
def Knit_Graph.WF (kg : Knit_Graph) : Prop :=
  (kg.nodes.map (fun e => e.1)).Nodup ∧
  ∀ e ∈ kg.nodes, e.2.loop_id = e.1 ∧ ∀ p ∈ e.2.parent_loops, p ∈ kg.predecessors e.1

/-! ### Association-list lemmas -/

theorem findAssoc_updateAssoc_self {κ α : Type} [DecidableEq κ] (k : κ) (v : α)
    (l : List (κ × α)) : findAssoc k (updateAssoc k v l) = some v := by
  induction l with
  | nil => simp [findAssoc, updateAssoc]
  | cons hd tl ih =>
      by_cases h : hd.1 = k <;>
        simp [findAssoc, updateAssoc, h, ih]

theorem updateAssoc_eq_self {κ α : Type} [DecidableEq κ] {k : κ} {v : α}
    {l : List (κ × α)} (h : findAssoc k l = some v) : updateAssoc k v l = l := by
  induction l with
  | nil => simp [findAssoc] at h
  | cons hd tl ih =>
      obtain ⟨k', v'⟩ := hd
      by_cases hk : k' = k
      · subst hk
        simp only [findAssoc, if_true, eq_self_iff_true, Option.some.injEq] at h
        subst h
        simp [updateAssoc]
      · simp only [findAssoc, if_neg hk] at h
        simp [updateAssoc, hk, ih h]

theorem updateAssoc_of_not_mem {κ α : Type} [DecidableEq κ] {k : κ} (v : α)
    {l : List (κ × α)} (h : k ∉ l.map Prod.fst) : updateAssoc k v l = l ++ [(k, v)] := by
  induction l with
  | nil => simp [updateAssoc]
  | cons hd tl ih =>
      obtain ⟨k', v'⟩ := hd
      simp only [List.map_cons, List.mem_cons, not_or] at h
      simp [updateAssoc, Ne.symm h.1, ih h.2]

theorem findAssoc_isSome_iff {κ α : Type} [DecidableEq κ] (k : κ) (l : List (κ × α)) :
    (findAssoc k l).isSome = true ↔ k ∈ l.map Prod.fst := by
  induction l with
  | nil => simp [findAssoc]
  | cons hd tl ih =>
      obtain ⟨k', v'⟩ := hd
      by_cases h : k' = k
      · subst h
        simp [findAssoc]
      · simp [findAssoc, h, ih, Ne.symm h]

theorem findAssoc_eq_none_iff {κ α : Type} [DecidableEq κ] (k : κ) (l : List (κ × α)) :
    findAssoc k l = none ↔ k ∉ l.map Prod.fst := by
  rw [← findAssoc_isSome_iff (α := α) k l]
  cases findAssoc k l <;> simp

theorem findAssoc_mem {κ α : Type} [DecidableEq κ] {k : κ} {v : α} {l : List (κ × α)}
    (h : findAssoc k l = some v) : (k, v) ∈ l := by
  induction l with
  | nil => simp [findAssoc] at h
  | cons hd tl ih =>
      obtain ⟨k', v'⟩ := hd
      by_cases hk : k' = k
      · subst hk
        simp only [findAssoc, if_true, eq_self_iff_true, Option.some.injEq] at h
        subst h
        exact List.mem_cons_self _ _
      · simp only [findAssoc, if_neg hk] at h
        exact List.mem_cons_of_mem _ (ih h)

theorem mem_keys_findAssoc {κ α : Type} [DecidableEq κ] {k : κ} {l : List (κ × α)}
    (h : k ∈ l.map Prod.fst) : ∃ v, findAssoc k l = some v := by
  have := (findAssoc_isSome_iff k l).mpr h
  cases hf : findAssoc k l with
  | none => rw [hf] at this; simp at this
  | some v => exact ⟨v, rfl⟩

theorem findAssoc_append_of_not_mem {κ α : Type} [DecidableEq κ] {k : κ}
    {l₁ l₂ : List (κ × α)} (h : k ∉ l₁.map Prod.fst) :
    findAssoc k (l₁ ++ l₂) = findAssoc k l₂ := by
  induction l₁ with
  | nil => rfl
  | cons hd tl ih =>
      obtain ⟨k', v'⟩ := hd
      simp only [List.map_cons, List.mem_cons, not_or] at h
      simp [findAssoc, Ne.symm h.1, ih h.2]

theorem updateAssoc_append_of_not_mem {κ α : Type} [DecidableEq κ] {k : κ} (v : α)
    {l₁ l₂ : List (κ × α)} (h : k ∉ l₁.map Prod.fst) :
    updateAssoc k v (l₁ ++ l₂) = l₁ ++ updateAssoc k v l₂ := by
  induction l₁ with
  | nil => rfl
  | cons hd tl ih =>
      obtain ⟨k', v'⟩ := hd
      simp only [List.map_cons, List.mem_cons, not_or] at h
      simp [updateAssoc, Ne.symm h.1, ih h.2]

theorem insertAt_mem {α : Type} (a : α) : ∀ (i : Nat) (l : List α), a ∈ insertAt i a l
  | 0, l => by simp [insertAt]
  | _ + 1, [] => by simp [insertAt]
  | n + 1, b :: l => by simp [insertAt, insertAt_mem a n l]

theorem insertAt_get {α : Type} (a : α) :
    ∀ (i : Nat) (l : List α), i ≤ l.length → (insertAt i a l).get? i = some a
  | 0, l, _ => by simp [insertAt]
  | _ + 1, [], h => absurd h (by simp)
  | n + 1, b :: l, h => by
      simp only [insertAt, List.get?]
      exact insertAt_get a n l (by simpa using h)



/-! ### The successful path of `connect_loops` -/

theorem connect_ok_spec (kg : Knit_Graph) (p c : Nat) (pd : Pull_Direction)
    (s : Option Nat) (d o : Int) (cl : Loop)
    (hp : kg.hasNode p = true) (hcl : findAssoc c kg.nodes = some cl) :
    kg.connect_loops p c pd s d o =
      .ok { kg with edges := updateAssoc (p, c) ⟨pd, d, o⟩ kg.edges,
                    nodes := updateAssoc c (cl.add_parent_loop p s) kg.nodes } := by
  have hc : kg.hasNode c = true := by
    unfold Knit_Graph.hasNode
    rw [hcl]
    rfl
  unfold Knit_Graph.connect_loops Knit_Graph.connect_loops_run
  simp only [hp, hc, not_true_eq_false, if_false, Bool.not_eq_true]
  rw [show ({ kg with edges := updateAssoc (p, c) ⟨pd, d, o⟩ kg.edges } : Knit_Graph).nodes
        = kg.nodes from rfl, hcl]

/-- A small concrete graph used to witness the hypothesis-bearing theorems:
two loops `0` and `1` on yarn `"yarn"`, with a single stitch edge `0 → 1`. -/
def kgW : Knit_Graph :=
  { nodes := [(0, ⟨0, "yarn", []⟩), (1, ⟨1, "yarn", [0]⟩)],
    edges := [((0, 1), ⟨.BtF, 0, 0⟩)],
    last_loop_id := 1,
    yarns := [("yarn", ⟨"yarn", [0, 1]⟩)] }

/-- **C4**: for every graph containing registered loops `p` and `c`, after
`connect_loops(p, c, pull_direction=D, depth=d, parent_offset=o)`,
`get_stitch_edge(p, c)` returns a mapping whose `pull_direction`, `depth`
and `parent_offset` equal the given values, and `p` appears in `c`'s parent
stack at the expected position: at the top of the stack when
`stack_position` was `None`, else at the given index (a position that
exists, i.e. at most the current stack length). -/
theorem connect_loops_metadata_roundtrip (kg : Knit_Graph) (p c : Nat)
    (pd : Pull_Direction) (s : Option Nat) (d o : Int) (cl : Loop)
    (hp : kg.hasNode p = true) (hcl : findAssoc c kg.nodes = some cl)
    (hs : ∀ i, s = some i → i ≤ cl.parent_loops.length) :
    ∃ kg', kg.connect_loops p c pd s d o = .ok kg' ∧
      kg'.get_stitch_edge p c = some ⟨pd, d, o⟩ ∧
      ∃ cl', findAssoc c kg'.nodes = some cl' ∧
        (s = none → cl'.parent_loops.getLast? = some p) ∧
        (∀ i, s = some i → cl'.parent_loops.get? i = some p) := by
  refine ⟨_, connect_ok_spec kg p c pd s d o cl hp hcl, ?_, cl.add_parent_loop p s, ?_, ?_, ?_⟩
  · unfold Knit_Graph.get_stitch_edge
    exact findAssoc_updateAssoc_self _ _ _
  · exact findAssoc_updateAssoc_self _ _ _
  · intro hnone
    subst hnone
    simp only [Loop.add_parent_loop]
    exact List.getLast?_concat _
  · intro i hi
    subst hi
    simp only [Loop.add_parent_loop]
    exact insertAt_get p i cl.parent_loops (hs i rfl)

theorem connect_loops_metadata_roundtrip_witness :
    ∃ kg', kgW.connect_loops 0 1 .BtF none 2 3 = .ok kg' ∧
      kg'.get_stitch_edge 0 1 = some ⟨.BtF, 2, 3⟩ ∧
      ∃ cl', findAssoc 1 kg'.nodes = some cl' ∧
        ((none : Option Nat) = none → cl'.parent_loops.getLast? = some 0) ∧
        (∀ i, (none : Option Nat) = some i → cl'.parent_loops.get? i = some 0) :=
  connect_loops_metadata_roundtrip kgW 0 1 .BtF none 2 3 ⟨1, "yarn", [0]⟩
    (by decide) (by decide) (fun i hi => nomatch hi)

/-- **C5**: `connect_loops` fails with the `LoopNotFoundError` kind whenever
the parent or the child id is not a registered node, and succeeds —
creating the edge and inserting the parent into the child's parent stack —
whenever both are registered. -/
theorem connect_loops_requires_registered (kg : Knit_Graph) (p c : Nat)
    (pd : Pull_Direction) (s : Option Nat) (d o : Int) :
    (¬ (kg.hasNode p = true ∧ kg.hasNode c = true) →
      ∃ m, kg.connect_loops p c pd s d o = .error (KGError.loopNotFound m) ∧
        (m = p ∨ m = c)) ∧
    (kg.hasNode p = true → kg.hasNode c = true →
      ∃ kg', kg.connect_loops p c pd s d o = .ok kg' ∧
        (kg'.get_stitch_edge p c).isSome = true ∧
        ∃ cl', findAssoc c kg'.nodes = some cl' ∧ p ∈ cl'.parent_loops) := by
  constructor
  · intro h
    by_cases hp : kg.hasNode p = true
    · have hc : ¬ kg.hasNode c = true := fun hc => h ⟨hp, hc⟩
      refine ⟨c, ?_, Or.inr rfl⟩
      unfold Knit_Graph.connect_loops Knit_Graph.connect_loops_run
      simp [hp, hc]
    · refine ⟨p, ?_, Or.inl rfl⟩
      unfold Knit_Graph.connect_loops Knit_Graph.connect_loops_run
      simp [hp]
  · intro hp hc
    obtain ⟨cl, hcl⟩ : ∃ cl, findAssoc c kg.nodes = some cl := by
      unfold Knit_Graph.hasNode at hc
      cases hf : findAssoc c kg.nodes with
      | none => rw [hf] at hc; simp at hc
      | some cl => exact ⟨cl, rfl⟩
    refine ⟨_, connect_ok_spec kg p c pd s d o cl hp hcl, ?_,
      cl.add_parent_loop p s, findAssoc_updateAssoc_self _ _ _, ?_⟩
    · show (findAssoc (p, c) (updateAssoc (p, c) (⟨pd, d, o⟩ : EdgeData) kg.edges)).isSome = true
      rw [findAssoc_updateAssoc_self]
      rfl
    · cases s with
      | none => simp [Loop.add_parent_loop]
      | some i =>
          simp only [Loop.add_parent_loop]
          exact insertAt_mem p i cl.parent_loops

theorem connect_loops_requires_registered_witness :
    (∃ m, Knit_Graph.init.connect_loops 0 1 .BtF none 0 0 =
        .error (KGError.loopNotFound m) ∧ (m = 0 ∨ m = 1)) ∧
    (∃ kg', kgW.connect_loops 0 1 .BtF none 0 0 = .ok kg' ∧
      (kg'.get_stitch_edge 0 1).isSome = true ∧
      ∃ cl', findAssoc 1 kg'.nodes = some cl' ∧ 0 ∈ cl'.parent_loops) :=
  ⟨(connect_loops_requires_registered Knit_Graph.init 0 1 .BtF none 0 0).1 (by decide),
   (connect_loops_requires_registered kgW 0 1 .BtF none 0 0).2 (by decide) (by decide)⟩

/-- **C6**: re-adding an already registered loop — one whose id is a node
carrying this very loop as payload, which lies on its (registered) yarn and
whose id does not exceed `last_loop_id` — leaves the whole graph state
unchanged: node set, loops dictionary (the shared `nodes` store),
`last_loop_id`, yarn registry and the yarn's loop-id sequence.  `add_loop`
is side-effect-only in Python; the model returns the unchanged state. -/
theorem add_loop_idempotent (kg : Knit_Graph) (l : Loop) (y : Yarn)
    (hn : findAssoc l.loop_id kg.nodes = some l)
    (hy : findAssoc l.yarn_id kg.yarns = some y)
    (hid : y.yarn_id = l.yarn_id)
    (hmem : l.loop_id ∈ y.loop_ids)
    (hlast : (l.loop_id : Int) ≤ kg.last_loop_id) :
    kg.add_loop l = some kg := by
  have h2 : updateAssoc y.yarn_id y kg.yarns = kg.yarns := by
    rw [hid]
    exact updateAssoc_eq_self hy
  unfold Knit_Graph.add_loop Knit_Graph.add_yarn
  simp only [updateAssoc_eq_self hn, hy, h2, if_pos hmem, if_neg (not_lt.mpr hlast)]

theorem add_loop_idempotent_witness :
    kgW.add_loop ⟨0, "yarn", []⟩ = some kgW :=
  add_loop_idempotent kgW ⟨0, "yarn", []⟩ ⟨"yarn", [0, 1]⟩
    (by decide) (by decide) (by decide) (by decide) (by decide)

/-! ### `last_loop_id` bookkeeping -/

def addLoops (kg : Knit_Graph) (ls : List Loop) : Option Knit_Graph :=
  ls.foldlM Knit_Graph.add_loop kg

theorem add_loop_last (kg : Knit_Graph) (l : Loop) (kg' : Knit_Graph)
    (h : kg.add_loop l = some kg') :
    kg'.last_loop_id = max kg.last_loop_id (l.loop_id : Int) := by
  unfold Knit_Graph.add_loop Knit_Graph.add_yarn at h
  simp only [] at h
  cases hy : findAssoc l.yarn_id kg.yarns with
  | none =>
      rw [hy] at h
      simp at h
  | some y =>
      simp only [hy] at h
      by_cases hm : l.loop_id ∈ y.loop_ids
      · rw [if_pos hm] at h
        have h' := Option.some.inj h
        rw [← h']
        by_cases hl : (l.loop_id : Int) > kg.last_loop_id
        · simp only [hl, if_true]
          exact (max_eq_right (le_of_lt hl)).symm
        · simp only [hl, if_false]
          exact (max_eq_left (not_lt.mp hl)).symm
      · rw [if_neg hm] at h
        simp at h

theorem connect_loops_last (kg : Knit_Graph) (p c : Nat) (pd : Pull_Direction)
    (s : Option Nat) (d o : Int) (kg' : Knit_Graph)
    (h : kg.connect_loops p c pd s d o = .ok kg') :
    kg'.last_loop_id = kg.last_loop_id := by
  unfold Knit_Graph.connect_loops Knit_Graph.connect_loops_run at h
  by_cases hp : kg.hasNode p = true
  · by_cases hc : kg.hasNode c = true
    · simp only [hp, hc, not_true_eq_false, if_false, Bool.not_eq_true] at h
      cases hf : findAssoc c kg.nodes with
      | none =>
          rw [show ({ kg with edges := updateAssoc (p, c) ⟨pd, d, o⟩ kg.edges } :
                Knit_Graph).nodes = kg.nodes from rfl, hf] at h
          rw [← Except.ok.inj h]
      | some cl =>
          rw [show ({ kg with edges := updateAssoc (p, c) ⟨pd, d, o⟩ kg.edges } :
                Knit_Graph).nodes = kg.nodes from rfl, hf] at h
          rw [← Except.ok.inj h]
    · simp [hp, hc] at h
  · simp [hp] at h

theorem addLoops_last (ls : List Loop) : ∀ (kg kg' : Knit_Graph),
    addLoops kg ls = some kg' →
    kg'.last_loop_id = ls.foldl (fun m l => max m (l.loop_id : Int)) kg.last_loop_id := by
  induction ls with
  | nil =>
      intro kg kg' h
      rw [← Option.some.inj h]
      rfl
  | cons a t ih =>
      intro kg kg' h
      unfold addLoops at h
      rw [List.foldlM_cons] at h
      cases h1 : kg.add_loop a with
      | none => rw [h1] at h; simp at h
      | some kg1 =>
          rw [h1] at h
          simp only [Option.bind_eq_bind, Option.some_bind] at h
          have := ih kg1 kg' h
          rw [this, List.foldl_cons, add_loop_last kg a kg1 h1]

/-- **C7**: `last_loop_id` starts at `-1`, `add_loop` raises it to the new
loop's id exactly when that id exceeds the current value (i.e. the result
is the maximum of the old value and the id), the other mutating operations
(`add_yarn`, `connect_loops`) never change it, and hence after any sequence
of `add_loop` calls it equals the maximum loop id ever added (`-1` when
none was). -/
theorem last_loop_id_tracks_max :
    Knit_Graph.init.last_loop_id = -1 ∧
    (∀ (kg : Knit_Graph) (l : Loop) (kg' : Knit_Graph), kg.add_loop l = some kg' →
      kg'.last_loop_id = max kg.last_loop_id (l.loop_id : Int)) ∧
    (∀ (kg : Knit_Graph) (y : Yarn), (kg.add_yarn y).last_loop_id = kg.last_loop_id) ∧
    (∀ (kg : Knit_Graph) (p c : Nat) (pd : Pull_Direction) (s : Option Nat) (d o : Int)
      (kg' : Knit_Graph), kg.connect_loops p c pd s d o = .ok kg' →
      kg'.last_loop_id = kg.last_loop_id) ∧
    (∀ (ls : List Loop) (kg kg' : Knit_Graph), addLoops kg ls = some kg' →
      kg'.last_loop_id = ls.foldl (fun m l => max m (l.loop_id : Int)) kg.last_loop_id) :=
  ⟨rfl, add_loop_last, fun _ _ => rfl,
   fun kg p c pd s d o kg' h => connect_loops_last kg p c pd s d o kg' h,
   fun ls kg kg' h => addLoops_last ls kg kg' h⟩

theorem last_loop_id_tracks_max_witness :
    kgW.last_loop_id = max kgW.last_loop_id ((0 : Nat) : Int) :=
  last_loop_id_tracks_max.2.1 kgW ⟨0, "yarn", []⟩ kgW add_loop_idempotent_witness

/-- **C9**: `get_loop(id)` and indexing (`__getitem__`) return the `Loop`
payload stored for the node with that id when the id is a node, and fail
with the not-found condition (spec section 7's `LoopNotFoundError` kind,
raised as `AttributeError` by the code) when the id is absent. -/
theorem getitem_found_or_not_found (kg : Knit_Graph) (loop_id : Nat) :
    (∀ l, findAssoc loop_id kg.nodes = some l → kg.getItem loop_id = .ok l) ∧
    (kg.hasNode loop_id = false →
      kg.getItem loop_id = .error (KGError.loopNotFound loop_id)) ∧
    kg.get_loop loop_id = kg.getItem loop_id := by
  refine ⟨?_, ?_, rfl⟩
  · intro l hl
    unfold Knit_Graph.getItem
    rw [hl]
  · intro habs
    unfold Knit_Graph.hasNode at habs
    unfold Knit_Graph.getItem
    cases hf : findAssoc loop_id kg.nodes with
    | none => rfl
    | some l => rw [hf] at habs; simp at habs

theorem getitem_found_or_not_found_witness :
    kgW.getItem 0 = .ok ⟨0, "yarn", []⟩ ∧
    kgW.getItem 5 = .error (KGError.loopNotFound 5) :=
  ⟨(getitem_found_or_not_found kgW 0).1 ⟨0, "yarn", []⟩ (by decide),
   (getitem_found_or_not_found kgW 5).2.1 (by decide)⟩

/-- **C10**: when `connect_loops` is called with an unregistered parent or
child id, it raises before performing any mutation: the state component of
the run is exactly the original graph (node set, edge set, edge attributes
and every loop's parent stack unchanged), because both precondition
`assert`s precede the edge insertion and the parent-stack insertion. -/
theorem connect_loops_atomic_on_failure (kg : Knit_Graph) (p c : Nat)
    (pd : Pull_Direction) (s : Option Nat) (d o : Int)
    (h : ¬ (kg.hasNode p = true ∧ kg.hasNode c = true)) :
    (kg.connect_loops_run p c pd s d o).2 = kg ∧
    ∃ m, (kg.connect_loops_run p c pd s d o).1 = .error (KGError.loopNotFound m) := by
  unfold Knit_Graph.connect_loops_run
  by_cases hp : kg.hasNode p = true
  · have hc : ¬ kg.hasNode c = true := fun hc => h ⟨hp, hc⟩
    simp [hp, hc]
  · simp [hp]

theorem connect_loops_atomic_on_failure_witness :
    (Knit_Graph.init.connect_loops_run 0 1 .BtF none 0 0).2 = Knit_Graph.init ∧
    ∃ m, (Knit_Graph.init.connect_loops_run 0 1 .BtF none 0 0).1 =
      .error (KGError.loopNotFound m) :=
  connect_loops_atomic_on_failure Knit_Graph.init 0 1 .BtF none 0 0 (by decide)

/-- The concrete scenario of C3: cast on 4 loops (ids 0–3), then mint loops
4–7 and connect 0→4, 1→5, 2→6, 3→7 with the same pull direction. -/
def swatchGraph : Option Knit_Graph :=
  (cast_on 4).bind (fun s =>
    [0, 1, 2, 3].foldlM
      (fun (kg : Knit_Graph) p =>
        (kg.add_loop_to_end "yarn").bind (fun r =>
          exceptToOption (r.2.2.connect_loops p r.1 .BtF none 0 0)))
      s.1)

/-- **C3**: in the graph built by casting on loops 0–3 and connecting
0→4, 1→5, 2→6, 3→7 with the same pull direction, `get_courses()` returns
exactly two `Course` objects with loop-id sequences `[0,1,2,3]` and
`[4,5,6,7]` in that order; `get_child_loop(0)` returns `4`;
`get_stitch_edge(0,4)` is a non-`None` mapping; `get_stitch_edge(0,5)` is
`None`. -/
theorem swatch_behaviour :
    (swatchGraph.bind Knit_Graph.get_courses).map (List.map Course.loops_by_id_in_order) =
      some [[0, 1, 2, 3], [4, 5, 6, 7]] ∧
    swatchGraph.map (fun kg => kg.get_child_loop 0) = some (some 4) ∧
    swatchGraph.map (fun kg => (kg.get_stitch_edge 0 4).isSome) = some true ∧
    swatchGraph.map (fun kg => kg.get_stitch_edge 0 5) = some none := by
  refine ⟨?_, ?_, ?_, ?_⟩ <;> decide

/-! ### The course scan: coverage and separation invariants -/

theorem scanStep_pos (preds : Nat → List Nat) (fin : List (List Nat)) (cur : List Nat)
    (a : Nat) (h : (preds a).any (fun p => cur.contains p) = true) :
    scanStep preds (fin, cur) a = (fin ++ [cur], [a]) := by
  unfold scanStep
  rw [if_pos h]

theorem scanStep_neg (preds : Nat → List Nat) (fin : List (List Nat)) (cur : List Nat)
    (a : Nat) (h : ¬ (preds a).any (fun p => cur.contains p) = true) :
    scanStep preds (fin, cur) a = (fin, cur ++ [a]) := by
  unfold scanStep
  rw [if_neg h]

theorem scan_state_flatten (preds : Nat → List Nat) :
    ∀ (ids : List Nat) (fin : List (List Nat)) (cur : List Nat),
      ((ids.foldl (scanStep preds) (fin, cur)).1 ++
          [(ids.foldl (scanStep preds) (fin, cur)).2]).flatten =
        (fin ++ [cur]).flatten ++ ids := by
  intro ids
  induction ids with
  | nil =>
      intro fin cur
      simp
  | cons a t ih =>
      intro fin cur
      by_cases h : (preds a).any (fun p => cur.contains p) = true
      · rw [List.foldl_cons, scanStep_pos preds fin cur a h, ih]
        simp [List.flatten_append]
      · rw [List.foldl_cons, scanStep_neg preds fin cur a h, ih]
        simp [List.flatten_append]

theorem coursePartition_flatten (preds : Nat → List Nat) (ids : List Nat) :
    (coursePartition preds ids).flatten = ids := by
  unfold coursePartition
  have := scan_state_flatten preds ids [] []
  simpa using this

theorem scan_state_pairwise (preds : Nat → List Nat) :
    ∀ (ids : List Nat) (fin : List (List Nat)) (cur : List Nat),
      (∀ part ∈ fin ++ [cur], part.Pairwise (fun x y => x ∉ preds y)) →
      ∀ part ∈ (ids.foldl (scanStep preds) (fin, cur)).1 ++
          [(ids.foldl (scanStep preds) (fin, cur)).2],
        part.Pairwise (fun x y => x ∉ preds y) := by
  intro ids
  induction ids with
  | nil =>
      intro fin cur h
      exact h
  | cons a t ih =>
      intro fin cur h
      by_cases hc : (preds a).any (fun p => cur.contains p) = true
      · rw [List.foldl_cons, scanStep_pos preds fin cur a hc]
        apply ih
        intro part hp
        rcases List.mem_append.mp hp with hp | hp
        · exact h part (List.mem_append.mp hp |>.elim
            (fun h1 => List.mem_append_left _ h1)
            (fun h1 => List.mem_append_right _ h1))
        · rw [List.mem_singleton.mp hp]
          exact List.pairwise_singleton _ _
      · rw [List.foldl_cons, scanStep_neg preds fin cur a hc]
        apply ih
        intro part hp
        rcases List.mem_append.mp hp with hp | hp
        · exact h part (List.mem_append_left _ hp)
        · rw [List.mem_singleton.mp hp]
          rw [List.pairwise_append]
          refine ⟨h cur (List.mem_append_right _ (List.mem_singleton.mpr rfl)), ?_, ?_⟩
          · exact List.pairwise_singleton _ _
          · intro x hx y hy
            rw [List.mem_singleton.mp hy]
            intro hxp
            have : ∃ p ∈ preds a, cur.contains p = true := ⟨x, hxp, List.elem_iff.mpr hx⟩
            exact hc (List.any_eq_true.mpr this)

theorem mem_keys_updateAssoc {κ α : Type} [DecidableEq κ] (k k' : κ) (v : α)
    (l : List (κ × α)) :
    k ∈ (updateAssoc k' v l).map Prod.fst ↔ k = k' ∨ k ∈ l.map Prod.fst := by
  induction l with
  | nil => simp [updateAssoc, eq_comm]
  | cons hd tl ih =>
      obtain ⟨k₀, v₀⟩ := hd
      by_cases h : k₀ = k'
      · subst h
        simp only [updateAssoc, if_true, eq_self_iff_true]
        simp [eq_comm, or_assoc, or_comm, or_left_comm]
      · simp only [updateAssoc, if_neg h, List.map_cons, List.mem_cons, ih]
        constructor
        · rintro (h1 | h1 | h1) <;> simp [h1]
        · rintro (h1 | h1 | h1) <;> simp [h1]

theorem buildCourse_fold (kg : Knit_Graph) (hWF : kg.WF) :
    ∀ (part : List Nat) (c : Course),
      (∀ id ∈ part, id ∈ kg.nodes.map Prod.fst) →
      part.Pairwise (fun x y => x ∉ kg.predecessors y) →
      (∀ k ∈ c.loops_by_id.map Prod.fst, ∀ y ∈ part, k ∉ kg.predecessors y) →
      ∃ c', part.foldlM (fun c loop_id => (findAssoc loop_id kg.nodes).bind
              (fun l => c.add_loop l none)) c = some c' ∧
        c'.loops_by_id_in_order = c.loops_by_id_in_order ++ part ∧
        ∀ k, (findAssoc k c'.loops_by_id).isSome ↔
          ((findAssoc k c.loops_by_id).isSome ∨ k ∈ part) := by
  intro part
  induction part with
  | nil =>
      intro c _ _ _
      exact ⟨c, rfl, by simp, by simp⟩
  | cons a t ih =>
      intro c hmem hpw hsep
      obtain ⟨la, hla⟩ := mem_keys_findAssoc (hmem a (List.mem_cons_self _ _))
      have hWFa := hWF.2 (a, la) (findAssoc_mem hla)
      have hid : la.loop_id = a := hWFa.1
      have hpar : ∀ p ∈ la.parent_loops, p ∈ kg.predecessors a := hWFa.2
      have hassert : la.parent_loops.any
          (fun p => (findAssoc p c.loops_by_id).isSome) = false := by
        rw [List.any_eq_false]
        intro p hp
        intro habs
        have hkey : p ∈ c.loops_by_id.map Prod.fst := (findAssoc_isSome_iff _ _).mp habs
        exact hsep p hkey a (List.mem_cons_self _ _) (hpar p hp)
      have hstep : c.add_loop la none =
          some { loops_by_id_in_order := c.loops_by_id_in_order ++ [a],
                 loops_by_id := updateAssoc a la c.loops_by_id } := by
        unfold Course.add_loop
        rw [hassert]
        rw [if_neg (by simp)]
        rw [hid]
      obtain ⟨c', hc', horder, hkeys⟩ := ih
        { loops_by_id_in_order := c.loops_by_id_in_order ++ [a],
          loops_by_id := updateAssoc a la c.loops_by_id }
        (fun id hid' => hmem id (List.mem_cons_of_mem _ hid'))
        (List.Pairwise.sublist (List.sublist_cons_self a t) hpw)
        (by
          intro k hk y hy
          rcases (mem_keys_updateAssoc k a la c.loops_by_id).mp hk with hk | hk
          · subst hk
            exact (List.pairwise_cons.mp hpw).1 y hy
          · exact hsep k hk y (List.mem_cons_of_mem _ hy))
      refine ⟨c', ?_, ?_, ?_⟩
      · rw [List.foldlM_cons, hla]
        simp only [Option.bind_eq_bind, Option.some_bind, hstep]
        exact hc'
      · rw [horder]
        simp
      · intro k
        rw [hkeys k]
        show (findAssoc k (updateAssoc a la c.loops_by_id)).isSome = true ∨ _ ↔ _
        rw [findAssoc_isSome_iff, mem_keys_updateAssoc, ← findAssoc_isSome_iff]
        rw [List.mem_cons]
        tauto

theorem mapM_buildCourse (kg : Knit_Graph) (hWF : kg.WF) :
    ∀ (parts : List (List Nat)),
      (∀ part ∈ parts, (∀ id ∈ part, id ∈ kg.nodes.map Prod.fst) ∧
        part.Pairwise (fun x y => x ∉ kg.predecessors y)) →
      ∃ cs, parts.mapM kg.buildCourse = some cs ∧
        cs.map Course.loops_by_id_in_order = parts ∧
        ∀ ci ∈ cs, ∀ k, (findAssoc k ci.loops_by_id).isSome = true ↔
          k ∈ ci.loops_by_id_in_order := by
  intro parts
  induction parts with
  | nil =>
      intro _
      exact ⟨[], rfl, rfl, by simp⟩
  | cons p ps ih =>
      intro h
      obtain ⟨c, hc, horder, hkeys⟩ := buildCourse_fold kg hWF p ⟨[], []⟩
        (h p (List.mem_cons_self _ _)).1 (h p (List.mem_cons_self _ _)).2
        (by intro k hk; simp [findAssoc] at hk)
      obtain ⟨cs, hcs, horders, hkeyss⟩ := ih (fun part hp => h part (List.mem_cons_of_mem _ hp))
      have hcb : kg.buildCourse p = some c := hc
      refine ⟨c :: cs, ?_, ?_, ?_⟩
      · rw [List.mapM_cons, hcb, hcs]
        rfl
      · rw [List.map_cons, horders, horder]
        simp
      · intro ci hci k
        rcases List.mem_cons.mp hci with hci | hci
        · subst hci
          rw [hkeys k, horder]
          simp [findAssoc]
        · exact hkeyss ci hci k

/-- The canonical description of `get_courses` on a well-formed graph: it
succeeds, the returned courses' loop-id sequences are exactly the scan's
per-course lists over the ascending node ids, and membership in a `Course`
(its dict keys) coincides with its order list. -/
theorem get_courses_spec (kg : Knit_Graph) (hWF : kg.WF) :
    ∃ cs, kg.get_courses = some cs ∧
      cs.map Course.loops_by_id_in_order =
        coursePartition kg.predecessors
          (List.insertionSort (· ≤ ·) (kg.nodes.map (fun e => e.1))) ∧
      ∀ ci ∈ cs, ∀ k, (findAssoc k ci.loops_by_id).isSome = true ↔
        k ∈ ci.loops_by_id_in_order := by
  unfold Knit_Graph.get_courses
  apply mapM_buildCourse kg hWF
  intro part hp
  constructor
  · intro id hid
    have hjoin : id ∈ (coursePartition kg.predecessors
        (List.insertionSort (· ≤ ·) (kg.nodes.map (fun e => e.1)))).flatten :=
      List.mem_flatten.mpr ⟨part, hp, hid⟩
    rw [coursePartition_flatten] at hjoin
    exact (List.perm_insertionSort _ _).mem_iff.mp hjoin
  · unfold coursePartition at hp
    exact scan_state_pairwise kg.predecessors _ [] [] (by simp) part hp

/-- **C1**: for every (well-formed) `Knit_Graph`, `get_courses()` returns a
sequence of `Course` objects whose loop ids, taken all together across the
returned courses, are exactly the graph's node ids — a permutation of them,
with no node id omitted and no loop id occurring twice. -/
theorem get_courses_partition_nodes (kg : Knit_Graph) (hWF : kg.WF) :
    ∃ cs, kg.get_courses = some cs ∧
      (cs.map Course.loops_by_id_in_order).flatten.Perm (kg.nodes.map (fun e => e.1)) ∧
      (cs.map Course.loops_by_id_in_order).flatten.Nodup := by
  obtain ⟨cs, hcs, horder, _⟩ := get_courses_spec kg hWF
  have hperm : (cs.map Course.loops_by_id_in_order).flatten.Perm
      (kg.nodes.map (fun e => e.1)) := by
    rw [horder, coursePartition_flatten]
    exact List.perm_insertionSort _ _
  exact ⟨cs, hcs, hperm, hperm.nodup_iff.mpr hWF.1⟩

theorem get_courses_partition_nodes_witness :
    ∃ cs, kgW.get_courses = some cs ∧
      (cs.map Course.loops_by_id_in_order).flatten.Perm (kgW.nodes.map (fun e => e.1)) ∧
      (cs.map Course.loops_by_id_in_order).flatten.Nodup :=
  get_courses_partition_nodes kgW (by constructor <;> decide)

/-- A graph reachable through the construction surface on which the
claim fails: cast on loops 0 and 1 (no edges), then
`connect_loops(parent=1, child=0)` — both are registered, so the call is
accepted, and loop 0 now has the *higher-numbered* loop 1 as parent. -/
def flippedGraph : Option Knit_Graph :=
  (cast_on 2).bind (fun s => exceptToOption (s.1.connect_loops 1 0 .BtF none 0 0))

/-- **C2 counterexample**: on `flippedGraph`, `get_courses()` returns a
single `Course` `[0, 1]`; loop 0's parent stack is `[1]`, and `1` is a
member of that same course — a loop and its parent share a course, so the
claim as stated (for every `Knit_Graph`) is false.  The ascending-id scan
only guards against parents that appear *earlier* in the open course. -/
theorem course_with_parent_inside :
    (flippedGraph.bind Knit_Graph.get_courses).map (List.map Course.loops_by_id_in_order) =
      some [[0, 1]] ∧
    flippedGraph.map (fun kg => (findAssoc 0 kg.nodes).map Loop.parent_loops) =
      some (some [1]) ∧
    (flippedGraph.bind Knit_Graph.get_courses).map
        (List.map (fun c => (findAssoc 1 c.loops_by_id).isSome)) = some [true] := by
  refine ⟨?_, ?_, ?_⟩ <;> decide

/-- **C2 (amended)**: for every well-formed `Knit_Graph` in which every
stitch edge runs from a lower-id parent to a higher-id child (loop ids
assigned in creation order, the course algorithm's documented assumption),
every `Course` returned by `get_courses()`, and every loop in that course,
no parent loop of that loop is also a member of the same course. -/
theorem get_courses_no_parent_in_course (kg : Knit_Graph) (hWF : kg.WF)
    (hord : ∀ e ∈ kg.edges, e.1.1 < e.1.2) :
    ∀ cs, kg.get_courses = some cs → ∀ c ∈ cs, ∀ id ∈ c.loops_by_id_in_order,
      ∀ l, findAssoc id kg.nodes = some l → ∀ p ∈ l.parent_loops,
        findAssoc p c.loops_by_id = none := by
  intro cs hcs c hc id hid l hl p hp
  obtain ⟨cs₀, hcs₀, horder, hkeys⟩ := get_courses_spec kg hWF
  have hcseq : cs = cs₀ := by
    rw [hcs] at hcs₀
    exact Option.some.inj hcs₀
  subst hcseq
  have hpred : p ∈ kg.predecessors id := (hWF.2 (id, l) (findAssoc_mem hl)).2 p hp
  have hlt : p < id := by
    unfold Knit_Graph.predecessors at hpred
    obtain ⟨e, he, hfe⟩ := List.mem_map.mp hpred
    obtain ⟨hee, heq⟩ := List.mem_filter.mp he
    have h2 : e.1.2 = id := by simpa using heq
    have h3 := hord e hee
    rw [hfe, h2] at h3
    exact h3
  by_contra habs
  have hpsome : (findAssoc p c.loops_by_id).isSome = true := by
    cases hf : findAssoc p c.loops_by_id with
    | none => exact absurd hf habs
    | some _ => rfl
  have hpmem : p ∈ c.loops_by_id_in_order := (hkeys c hc p).mp hpsome
  have hpart_mem : c.loops_by_id_in_order ∈ coursePartition kg.predecessors
      (List.insertionSort (· ≤ ·) (kg.nodes.map (fun e => e.1))) := by
    rw [← horder]
    exact List.mem_map_of_mem _ hc
  have hpw : c.loops_by_id_in_order.Pairwise (fun x y => x ∉ kg.predecessors y) := by
    refine scan_state_pairwise kg.predecessors
      (List.insertionSort (· ≤ ·) (kg.nodes.map (fun e => e.1))) [] [] (by simp) _ ?_
    unfold coursePartition at hpart_mem
    exact hpart_mem
  have hsub : c.loops_by_id_in_order.Sublist (coursePartition kg.predecessors
      (List.insertionSort (· ≤ ·) (kg.nodes.map (fun e => e.1)))).flatten :=
    List.sublist_flatten_of_mem hpart_mem
  rw [coursePartition_flatten] at hsub
  have hple : c.loops_by_id_in_order.Pairwise (· ≤ ·) :=
    List.Pairwise.sublist hsub (List.sorted_insertionSort _ _)
  have hpnodup : c.loops_by_id_in_order.Nodup :=
    List.Pairwise.sublist hsub ((List.perm_insertionSort _ _).nodup_iff.mpr hWF.1)
  have hplt : c.loops_by_id_in_order.Pairwise (· < ·) :=
    (hple.and hpnodup).imp (fun h => lt_of_le_of_ne h.1 h.2)
  obtain ⟨i, hi, hieq⟩ := List.mem_iff_getElem.mp hpmem
  obtain ⟨j, hj, hjeq⟩ := List.mem_iff_getElem.mp hid
  have hij : i < j := by
    rcases lt_trichotomy i j with h | h | h
    · exact h
    · exfalso
      subst h
      rw [hieq] at hjeq
      omega
    · exfalso
      have := (List.pairwise_iff_getElem.mp hplt) j i hj hi h
      rw [hieq, hjeq] at this
      omega
  have hsep := (List.pairwise_iff_getElem.mp hpw) i j hi hj hij
  rw [hieq, hjeq] at hsep
  exact hsep hpred

theorem get_courses_no_parent_in_course_witness :
    findAssoc 0 (⟨[1], [(1, ⟨1, "yarn", [0]⟩)]⟩ : Course).loops_by_id = none :=
  get_courses_no_parent_in_course kgW (by constructor <;> decide) (by decide)
    [⟨[0], [(0, ⟨0, "yarn", []⟩)]⟩, ⟨[1], [(1, ⟨1, "yarn", [0]⟩)]⟩] (by decide)
    ⟨[1], [(1, ⟨1, "yarn", [0]⟩)]⟩ (by decide) 1 (by decide)
    ⟨1, "yarn", [0]⟩ (by decide) 0 (by decide)

/-! ### The jersey-knit graph in closed form -/

/-- The parent id of loop `i` in a jersey fabric of width `w`: the loop of
the previous row in mirrored position. -/
def parJ (w i : Nat) : Nat := w * (i / w) - 1 - i % w

/-- The payload of node `i` in the jersey graph: cast-on loops (first row)
have no parents, later loops have exactly their jersey parent. -/
def loopJ (w i : Nat) : Loop :=
  if i < w then ⟨i, "yarn", []⟩ else ⟨i, "yarn", [parJ w i]⟩

/-- The stitch edges produced by row `r` of `jersey_knit` (in creation
order): child `w * r + j` pulled through parent `w * r - 1 - j`. -/
def rowEdgesJ (w r : Nat) : List ((Nat × Nat) × EdgeData) :=
  (List.range w).map (fun j => ((w * r - 1 - j, w * r + j), ⟨.BtF, 0, 0⟩))

/-- The graph `jersey_knit w h` builds, in closed form. -/
def J (w h : Nat) : Knit_Graph :=
  { nodes := (List.range (w * h)).map (fun i => (i, loopJ w i)),
    edges := ((List.range' 1 (h - 1)).map (rowEdgesJ w)).flatten,
    last_loop_id := (w * h : Int) - 1,
    yarns := [("yarn", ⟨"yarn", List.range (w * h)⟩)] }

/-- The state in the middle of building row `r`, after its first `j`
stitches. -/
def Jmid (w r j : Nat) : Knit_Graph :=
  { nodes := (List.range (w * r + j)).map (fun i => (i, loopJ w i)),
    edges := ((List.range' 1 (r - 1)).map (rowEdgesJ w)).flatten ++
      (List.range j).map (fun jq => ((w * r - 1 - jq, w * r + jq), ⟨.BtF, 0, 0⟩)),
    last_loop_id := (w * r + j : Int) - 1,
    yarns := [("yarn", ⟨"yarn", List.range (w * r + j)⟩)] }

/-- The state between minting loop `w * r + j` and connecting it. -/
def Jmid2 (w r j : Nat) : Knit_Graph :=
  { nodes := (List.range (w * r + j)).map (fun i => (i, loopJ w i)) ++
      [(w * r + j, ⟨w * r + j, "yarn", []⟩)],
    edges := ((List.range' 1 (r - 1)).map (rowEdgesJ w)).flatten ++
      (List.range j).map (fun jq => ((w * r - 1 - jq, w * r + jq), ⟨.BtF, 0, 0⟩)),
    last_loop_id := (w * r + j : Int),
    yarns := [("yarn", ⟨"yarn", List.range (w * r + j + 1)⟩)] }

theorem range'_concat_one (s n : Nat) : List.range' s (n + 1) = List.range' s n ++ [s + n] := by
  rw [List.range'_eq_map_range, List.range'_eq_map_range, List.range_succ, List.map_append]
  rfl

theorem range'_eq_cons (s n : Nat) (h : 1 ≤ n) :
    List.range' s n = s :: List.range' (s + 1) (n - 1) := by
  cases n with
  | zero => omega
  | succ m => rfl

theorem findAssoc_append_left {κ α : Type} [DecidableEq κ] {k : κ} {v : α}
    {l₁ : List (κ × α)} (l₂ : List (κ × α)) (h : findAssoc k l₁ = some v) :
    findAssoc k (l₁ ++ l₂) = some v := by
  induction l₁ with
  | nil => simp [findAssoc] at h
  | cons hd tl ih =>
      obtain ⟨kq, vq⟩ := hd
      by_cases hk : kq = k
      · simp only [findAssoc, if_pos hk] at h ⊢
        exact h
      · simp only [findAssoc, if_neg hk] at h ⊢
        exact ih h

theorem findAssoc_map_range {α : Type} (f : Nat → α) (N i : Nat) :
    findAssoc i ((List.range N).map (fun n => (n, f n))) =
      if i < N then some (f i) else none := by
  induction N with
  | zero => simp [findAssoc]
  | succ n ih =>
      rw [List.range_succ, List.map_append]
      by_cases hi : i < n
      · rw [findAssoc_append_left _ (by rw [ih, if_pos hi]), if_pos (by omega)]
      · have hnot : i ∉ ((List.range n).map (fun n => (n, f n))).map Prod.fst := by
          intro hmem
          obtain ⟨e, he, hei⟩ := List.mem_map.mp hmem
          obtain ⟨m, hm, hme⟩ := List.mem_map.mp he
          rw [← hme] at hei
          simp only at hei
          subst hei
          exact hi (by simpa using hm)
        rw [findAssoc_append_of_not_mem hnot]
        by_cases he : i = n
        · subst he
          simp [findAssoc]
        · have hne : ¬ n = i := fun hq => he hq.symm
          have hlt : ¬ i < n + 1 := by omega
          simp only [List.map_cons, List.map_nil, findAssoc, if_neg hne, if_neg hlt]

theorem Jmid_zero (w r : Nat) : Jmid w r 0 = J w r := by
  unfold Jmid J
  simp

theorem Jmid_last (w r : Nat) (hr : 1 ≤ r) : Jmid w r w = J w (r + 1) := by
  unfold Jmid J
  have h1 : w * r + w = w * (r + 1) := by ring
  have h2 : List.range' 1 ((r + 1) - 1) = List.range' 1 (r - 1) ++ [r] := by
    have h3 : (r + 1) - 1 = (r - 1) + 1 := by omega
    rw [h3, range'_concat_one]
    have h4 : 1 + (r - 1) = r := by omega
    rw [h4]
  rw [h1, h2, List.map_append, List.flatten_append]
  unfold rowEdgesJ
  simp
  ring

theorem Jmid_edges_child_lt (w r j : Nat) :
    ∀ e ∈ (Jmid w r j).edges, e.1.2 < w * r + j := by
  intro e he
  unfold Jmid at he
  rcases List.mem_append.mp he with he | he
  · obtain ⟨l, hl, hel⟩ := List.mem_flatten.mp he
    obtain ⟨rq, hrq, hrl⟩ := List.mem_map.mp hl
    subst hrl
    unfold rowEdgesJ at hel
    obtain ⟨jq, hjq, hje⟩ := List.mem_map.mp hel
    have hjw : jq < w := List.mem_range.mp hjq
    have hrb := List.mem_range'_1.mp hrq
    have he2 : e.1.2 = w * rq + jq := by rw [← hje]
    have e1 : w * (rq + 1) ≤ w * r := Nat.mul_le_mul_left w (by omega)
    have e2 : w * (rq + 1) = w * rq + w := by ring
    omega
  · obtain ⟨jq, hjq, hje⟩ := List.mem_map.mp he
    have hjj : jq < j := List.mem_range.mp hjq
    have he2 : e.1.2 = w * r + jq := by rw [← hje]
    omega

theorem mem_predecessors_iff (kg : Knit_Graph) (p i : Nat) :
    p ∈ kg.predecessors i ↔ ∃ ed, ((p, i), ed) ∈ kg.edges := by
  unfold Knit_Graph.predecessors
  constructor
  · intro h
    obtain ⟨e, he, hfe⟩ := List.mem_map.mp h
    obtain ⟨hee, heq⟩ := List.mem_filter.mp he
    obtain ⟨⟨ep, ec⟩, ed⟩ := e
    have h1 : ep = p := hfe
    have h2 : ec = i := by simpa using heq
    rw [← h1, ← h2]
    exact ⟨ed, hee⟩
  · rintro ⟨ed, hed⟩
    exact List.mem_map.mpr ⟨((p, i), ed), List.mem_filter.mpr ⟨hed, by simp⟩, rfl⟩

theorem J_edge_elim (w h : Nat) :
    ∀ e ∈ (J w h).edges, ∃ r j, 1 ≤ r ∧ r < h ∧ j < w ∧
      e.1 = (w * r - 1 - j, w * r + j) := by
  intro e he
  unfold J at he
  obtain ⟨l, hl, hel⟩ := List.mem_flatten.mp he
  obtain ⟨r, hr, hrl⟩ := List.mem_map.mp hl
  subst hrl
  unfold rowEdgesJ at hel
  obtain ⟨j, hj, hje⟩ := List.mem_map.mp hel
  have hrb := List.mem_range'_1.mp hr
  exact ⟨r, j, hrb.1, by omega, List.mem_range.mp hj, by rw [← hje]⟩

theorem J_edge_intro (w h r j : Nat) (hr : 1 ≤ r) (hrh : r < h) (hj : j < w) :
    ((w * r - 1 - j, w * r + j), (⟨.BtF, 0, 0⟩ : EdgeData)) ∈ (J w h).edges := by
  unfold J
  apply List.mem_flatten.mpr
  refine ⟨rowEdgesJ w r, List.mem_map_of_mem _ ?_, ?_⟩
  · exact List.mem_range'_1.mpr ⟨hr, by omega⟩
  · unfold rowEdgesJ
    exact List.mem_map_of_mem _ (List.mem_range.mpr hj)

theorem J_pred_elim (w h : Nat) {p i : Nat} (hp : p ∈ (J w h).predecessors i) :
    w ≤ i ∧ i < w * h ∧ p = parJ w i := by
  obtain ⟨ed, hed⟩ := (mem_predecessors_iff _ p i).mp hp
  obtain ⟨r, j, hr, hrh, hj, he⟩ := J_edge_elim w h _ hed
  have h1 : p = w * r - 1 - j ∧ i = w * r + j := by simpa [Prod.ext_iff] using he
  obtain ⟨hpp, hii⟩ := h1
  subst hii
  subst hpp
  have e0 : w * 1 = w := mul_one w
  have e1 : w * 1 ≤ w * r := Nat.mul_le_mul_left w hr
  have e2 : w * (r + 1) ≤ w * h := Nat.mul_le_mul_left w (by omega)
  have e3 : w * (r + 1) = w * r + w := by ring
  refine ⟨by omega, by omega, ?_⟩
  unfold parJ
  have hd : (w * r + j) / w = r := by
    rw [Nat.mul_add_div (by omega)]
    rw [Nat.div_eq_of_lt hj]
    omega
  have hm : (w * r + j) % w = j := by
    rw [Nat.mul_add_mod]
    exact Nat.mod_eq_of_lt hj
  rw [hd, hm]

theorem J_pred_intro (w h : Nat) (hw : 1 ≤ w) {i : Nat} (hiw : w ≤ i) (hih : i < w * h) :
    parJ w i ∈ (J w h).predecessors i := by
  apply (mem_predecessors_iff _ _ _).mpr
  refine ⟨⟨.BtF, 0, 0⟩, ?_⟩
  have hr1 : 1 ≤ i / w := (Nat.one_le_div_iff (by omega)).mpr hiw
  have hrh : i / w < h := by
    rw [Nat.div_lt_iff_lt_mul (by omega)]
    rw [mul_comm h w]
    exact hih
  have hj : i % w < w := Nat.mod_lt _ (by omega)
  have hsum : w * (i / w) + i % w = i := Nat.div_add_mod i w
  have := J_edge_intro w h (i / w) (i % w) hr1 hrh hj
  rw [hsum] at this
  unfold parJ
  exact this

theorem J_WF (w h : Nat) (hw : 1 ≤ w) : (J w h).WF := by
  constructor
  · have hkeys : ((List.range (w * h)).map (fun i => (i, loopJ w i))).map (fun e => e.1) =
        List.range (w * h) := by
      rw [List.map_map]
      exact List.map_id' _
    show ((J w h).nodes.map (fun e => e.1)).Nodup
    unfold J
    rw [hkeys]
    exact List.nodup_range _
  · intro e he
    unfold J at he
    obtain ⟨i, hi, hei⟩ := List.mem_map.mp he
    subst hei
    constructor
    · show (loopJ w i).loop_id = i
      unfold loopJ
      split <;> rfl
    · intro p hp
      show p ∈ (J w h).predecessors i
      unfold loopJ at hp
      by_cases hiw : i < w
      · rw [if_pos hiw] at hp
        simp at hp
      · rw [if_neg hiw] at hp
        simp only [List.mem_singleton] at hp
        subst hp
        exact J_pred_intro w h hw (by omega) (by simpa using hi)

theorem scan_no_break (preds : Nat → List Nat) (B : Nat) :
    ∀ (ids : List Nat) (fin : List (List Nat)) (cur : List Nat),
      (∀ i ∈ ids, ∀ p ∈ preds i, p < B) → (∀ x ∈ cur, B ≤ x) → (∀ i ∈ ids, B ≤ i) →
      ids.foldl (scanStep preds) (fin, cur) = (fin, cur ++ ids) := by
  intro ids
  induction ids with
  | nil =>
      intro fin cur _ _ _
      simp
  | cons a t ih =>
      intro fin cur h1 h2 h3
      have hfalse : ¬ (preds a).any (fun p => cur.contains p) = true := by
        intro hex
        obtain ⟨p, hp, hcont⟩ := List.any_eq_true.mp hex
        have hmem : p ∈ cur := by simpa using hcont
        have ha := h1 a (List.mem_cons_self _ _) p hp
        have hb := h2 p hmem
        omega
      have h2q : ∀ x ∈ cur ++ [a], B ≤ x := by
        intro x hx
        rcases List.mem_append.mp hx with hx | hx
        · exact h2 x hx
        · rw [List.mem_singleton.mp hx]
          exact h3 a (List.mem_cons_self _ _)
      rw [List.foldl_cons, scanStep_neg preds fin cur a hfalse]
      rw [ih fin (cur ++ [a]) (fun i hi => h1 i (List.mem_cons_of_mem _ hi)) h2q
            (fun i hi => h3 i (List.mem_cons_of_mem _ hi))]
      simp

theorem J_first_row_no_pred (w h : Nat) {i : Nat} (hi : i < w) :
    ∀ p ∈ (J w h).predecessors i, False := by
  intro p hp
  obtain ⟨hiw, _, _⟩ := J_pred_elim w h hp
  omega

theorem J_row_pred_lt (w h : Nat) (hw : 1 ≤ w) {i n : Nat} (hn : 1 ≤ n)
    (hlo : w * n ≤ i) (hhi : i < w * n + w) :
    ∀ p ∈ (J w h).predecessors i, p < w * n := by
  intro p hp
  obtain ⟨hiw, hihw, hpe⟩ := J_pred_elim w h hp
  have hd : i / w = n := by
    have hj : i - w * n < w := by omega
    have hi2 : i = w * n + (i - w * n) := by omega
    rw [hi2, Nat.mul_add_div (by omega), Nat.div_eq_of_lt hj]
    omega
  subst hpe
  unfold parJ
  rw [hd]
  have h1 : 1 ≤ w * n := by
    have := Nat.mul_le_mul hw hn
    omega
  omega

theorem scanJ (w h : Nat) (hw : 1 ≤ w) :
    ∀ r, 1 ≤ r → r ≤ h →
      (List.range (w * r)).foldl (scanStep (J w h).predecessors) ([], []) =
        ((List.range (r - 1)).map (fun k => List.range' (w * k) w),
          List.range' (w * (r - 1)) w) := by
  intro r
  induction r with
  | zero =>
      intro h1 _
      omega
  | succ n ihn =>
      intro _ hrh
      by_cases hn : 1 ≤ n
      · have hstate := ihn hn (by omega)
        have hsplit : List.range (w * (n + 1)) = List.range (w * n) ++ List.range' (w * n) w := by
          rw [show w * (n + 1) = w * n + w from by ring, List.range_add]
          rw [List.range'_eq_map_range]
        rw [hsplit, List.foldl_append, hstate]
        rw [range'_eq_cons (w * n) w hw, List.foldl_cons]
        have hkey : w * (n - 1) + w = w * n := by
          have : n - 1 + 1 = n := by omega
          calc w * (n - 1) + w = w * ((n - 1) + 1) := by ring
            _ = w * n := by rw [this]
        have hone : 1 ≤ w * n := by
          have := Nat.mul_le_mul hw hn
          omega
        have hbreak : ((J w h).predecessors (w * n)).any
            (fun p => (List.range' (w * (n - 1)) w).contains p) = true := by
          apply List.any_eq_true.mpr
          refine ⟨w * n - 1, ?_, ?_⟩
          · have hedge := J_edge_intro w h n 0 hn (by omega) (by omega)
            have := (mem_predecessors_iff (J w h) (w * n - 1 - 0) (w * n + 0)).mpr ⟨_, hedge⟩
            simpa using this
          · have : w * n - 1 ∈ List.range' (w * (n - 1)) w :=
              List.mem_range'_1.mpr (by omega)
            simpa using this
        rw [scanStep_pos _ _ _ _ hbreak]
        rw [scan_no_break (J w h).predecessors (w * n) (List.range' (w * n + 1) (w - 1)) _ _
              ?h1 ?h2 ?h3]
        case h1 =>
          intro i hi
          have hib := List.mem_range'_1.mp hi
          exact J_row_pred_lt w h hw hn (by omega) (by omega)
        case h2 =>
          intro x hx
          rw [List.mem_singleton.mp hx]
        case h3 =>
          intro i hi
          have hib := List.mem_range'_1.mp hi
          omega
        have hparts : (List.range n).map (fun k => List.range' (w * k) w) =
            (List.range (n - 1)).map (fun k => List.range' (w * k) w) ++
              [List.range' (w * (n - 1)) w] := by
          conv_lhs => rw [show n = (n - 1) + 1 from by omega]
          rw [List.range_succ, List.map_append]
          rfl
        simp only [Prod.mk.injEq, Nat.add_sub_cancel]
        constructor
        · rw [hparts]
        · rw [List.singleton_append, ← range'_eq_cons (w * n) w hw]
      · have hn0 : n = 0 := by omega
        subst hn0
        rw [show w * 1 = w from mul_one w]
        rw [show (List.range w : List Nat) = List.range' 0 w from List.range_eq_range' w]
        rw [scan_no_break (J w h).predecessors 0 (List.range' 0 w) [] []
              ?g1 ?g2 ?g3]
        case g1 =>
          intro i hi p hp
          have hib := List.mem_range'_1.mp hi
          exact absurd hp (by intro hq; exact J_first_row_no_pred w h (by omega) p hq)
        case g2 =>
          intro x hx
          simp at hx
        case g3 =>
          intro i _
          omega
        simp

theorem add_loop_to_end_generic (kg : Knit_Graph) (N : Nat) (ids : List Nat)
    (hlast : kg.last_loop_id = (N : Int) - 1)
    (hyarn : kg.yarns = [("yarn", ⟨"yarn", ids⟩)])
    (hkeys : N ∉ kg.nodes.map Prod.fst) :
    kg.add_loop_to_end "yarn" =
      some (N, ⟨N, "yarn", []⟩,
        { nodes := kg.nodes ++ [(N, ⟨N, "yarn", []⟩)],
          edges := kg.edges,
          last_loop_id := (N : Int),
          yarns := [("yarn", ⟨"yarn", ids ++ [N]⟩)] }) := by
  have hN : (kg.last_loop_id + 1).toNat = N := by
    rw [hlast, sub_add_cancel, Int.toNat_natCast]
  unfold Knit_Graph.add_loop_to_end Knit_Graph.add_loop Knit_Graph.add_yarn
  rw [hyarn]
  simp only [findAssoc, if_pos, updateAssoc, hN]
  rw [updateAssoc_of_not_mem _ hkeys]
  simp only [List.mem_append, List.mem_singleton, or_true, if_true, hlast]
  rw [if_pos (by omega : (N : Int) - 1 < (N : Int))]
  rfl

theorem parJ_row (w r j : Nat) (hw : 1 ≤ w) (hj : j < w) :
    parJ w (w * r + j) = w * r - 1 - j := by
  unfold parJ
  have hd : (w * r + j) / w = r := by
    rw [Nat.mul_add_div (by omega), Nat.div_eq_of_lt hj]
    omega
  have hm : (w * r + j) % w = j := by
    rw [Nat.mul_add_mod]
    exact Nat.mod_eq_of_lt hj
  rw [hd, hm]

theorem not_mem_keys_map_range (w N : Nat) :
    N ∉ ((List.range N).map (fun i => (i, loopJ w i))).map Prod.fst := by
  intro hmem
  obtain ⟨e, he, hei⟩ := List.mem_map.mp hmem
  obtain ⟨m, hm, hme⟩ := List.mem_map.mp he
  rw [← hme] at hei
  simp only at hei
  subst hei
  exact absurd (List.mem_range.mp hm) (lt_irrefl _)

theorem add_loop_to_end_Jmid (w r j : Nat) :
    (Jmid w r j).add_loop_to_end "yarn" =
      some (w * r + j, ⟨w * r + j, "yarn", []⟩, Jmid2 w r j) := by
  have h := add_loop_to_end_generic (Jmid w r j) (w * r + j) (List.range (w * r + j))
    rfl rfl (not_mem_keys_map_range w (w * r + j))
  rw [h]
  unfold Jmid2 Jmid
  rw [← List.range_succ]
  rfl

theorem connect_Jmid2 (w r j : Nat) (hw : 1 ≤ w) (hr : 1 ≤ r) (hj : j < w) :
    (Jmid2 w r j).connect_loops (w * r - 1 - j) (w * r + j) .BtF none 0 0 =
      .ok (Jmid w r (j + 1)) := by
  have hone : 1 ≤ w * r := by
    have := Nat.mul_le_mul hw hr
    omega
  have hplt : w * r - 1 - j < w * r + j := by omega
  have hchild : findAssoc (w * r + j) (Jmid2 w r j).nodes =
      some ⟨w * r + j, "yarn", []⟩ := by
    show findAssoc (w * r + j) (((List.range (w * r + j)).map (fun i => (i, loopJ w i))) ++
      [(w * r + j, ⟨w * r + j, "yarn", []⟩)]) = _
    rw [findAssoc_append_of_not_mem (not_mem_keys_map_range w (w * r + j))]
    simp [findAssoc]
  have hparent : (Jmid2 w r j).hasNode (w * r - 1 - j) = true := by
    have hfind : findAssoc (w * r - 1 - j)
        ((List.range (w * r + j)).map (fun i => (i, loopJ w i))) =
        some (loopJ w (w * r - 1 - j)) := by
      rw [findAssoc_map_range]
      rw [if_pos hplt]
    unfold Knit_Graph.hasNode
    show (findAssoc (w * r - 1 - j) (((List.range (w * r + j)).map
      (fun i => (i, loopJ w i))) ++ [(w * r + j, ⟨w * r + j, "yarn", []⟩)])).isSome = true
    rw [findAssoc_append_left _ hfind]
    rfl
  rw [connect_ok_spec (Jmid2 w r j) (w * r - 1 - j) (w * r + j) .BtF none 0 0 _
    hparent hchild]
  congr 1
  have hedgekey : (w * r - 1 - j, w * r + j) ∉ (Jmid2 w r j).edges.map Prod.fst := by
    intro hmem
    obtain ⟨e, he, hei⟩ := List.mem_map.mp hmem
    have hlt : e.1.2 < w * r + j := Jmid_edges_child_lt w r j e he
    rw [hei] at hlt
    omega
  have he1 : updateAssoc (w * r - 1 - j, w * r + j) (⟨.BtF, 0, 0⟩ : EdgeData)
      (Jmid2 w r j).edges =
      (Jmid2 w r j).edges ++ [((w * r - 1 - j, w * r + j), ⟨.BtF, 0, 0⟩)] :=
    updateAssoc_of_not_mem _ hedgekey
  have hloop : (⟨w * r + j, "yarn", []⟩ : Loop).add_parent_loop (w * r - 1 - j) none =
      loopJ w (w * r + j) := by
    unfold Loop.add_parent_loop loopJ
    have hwle : w ≤ w * r := by
      have := Nat.mul_le_mul_left w hr
      omega
    rw [if_neg (by omega : ¬ w * r + j < w), parJ_row w r j hw hj]
    rfl
  have he2 : updateAssoc (w * r + j)
      ((⟨w * r + j, "yarn", []⟩ : Loop).add_parent_loop (w * r - 1 - j) none)
      (Jmid2 w r j).nodes =
      ((List.range (w * r + j)).map (fun i => (i, loopJ w i))) ++
        [(w * r + j, loopJ w (w * r + j))] := by
    show updateAssoc (w * r + j) _ (((List.range (w * r + j)).map
      (fun i => (i, loopJ w i))) ++ [(w * r + j, ⟨w * r + j, "yarn", []⟩)]) = _
    rw [updateAssoc_append_of_not_mem _ (not_mem_keys_map_range w (w * r + j))]
    rw [hloop]
    simp [updateAssoc]
  rw [he1, he2]
  unfold Jmid Jmid2
  simp only [Knit_Graph.mk.injEq]
  refine ⟨?_, ?_, ?_, ?_⟩
  · rw [show w * r + (j + 1) = (w * r + j) + 1 from rfl, List.range_succ, List.map_append]
    rfl
  · rw [List.append_assoc]
    rw [show (List.range j).map
        (fun jq => ((w * r - 1 - jq, w * r + jq), (⟨.BtF, 0, 0⟩ : EdgeData))) ++
        [((w * r - 1 - j, w * r + j), ⟨.BtF, 0, 0⟩)] =
        (List.range (j + 1)).map
        (fun jq => ((w * r - 1 - jq, w * r + jq), (⟨.BtF, 0, 0⟩ : EdgeData)))
      from by rw [List.range_succ, List.map_append]; rfl]
  · push_cast
    ring
  · rfl

theorem jerseyRow_J (w r : Nat) (hw : 1 ≤ w) (hr : 1 ≤ r) :
    jerseyRow (J w r) (List.range' (w * (r - 1)) w) =
      some (J w (r + 1), List.range' (w * r) w) := by
  unfold jerseyRow
  have hkey : w * (r - 1) + w = w * r := by
    have h1 : (r - 1) + 1 = r := by omega
    calc w * (r - 1) + w = w * ((r - 1) + 1) := by ring
      _ = w * r := by rw [h1]
  have hrev : (List.range' (w * (r - 1)) w).reverse =
      (List.range w).map (fun i => w * r - 1 - i) := by
    rw [List.reverse_range']
    apply List.map_congr_left
    intro i _
    omega
  rw [hrev]
  have hfold : ∀ k, k ≤ w →
      ((List.range k).map (fun i => w * r - 1 - i)).foldlM
        (fun (s : Knit_Graph × List Nat) parent_loop_id =>
          (s.1.add_loop_to_end "yarn").bind (fun rr =>
            (exceptToOption (rr.2.2.connect_loops parent_loop_id rr.1 .BtF none 0 0)).map
              (fun kg2 => (kg2, s.2 ++ [rr.1]))))
        (J w r, ([] : List Nat)) =
      some (Jmid w r k, List.range' (w * r) k) := by
    intro k
    induction k with
    | zero =>
        intro _
        rw [← Jmid_zero w r]
        rfl
    | succ n ihn =>
        intro hk
        rw [List.range_succ, List.map_append, List.foldlM_append, ihn (by omega)]
        simp only [Option.bind_eq_bind, Option.some_bind, List.map_cons, List.map_nil]
        rw [List.foldlM_cons]
        show ((Jmid w r n).add_loop_to_end "yarn").bind _ >>= _ = _
        rw [add_loop_to_end_Jmid w r n]
        simp only [Option.bind_eq_bind, Option.some_bind]
        rw [connect_Jmid2 w r n hw hr (by omega)]
        simp only [exceptToOption, Option.map_some]
        rw [show List.range' (w * r) n ++ [w * r + n] = List.range' (w * r) (n + 1) from
          (range'_concat_one (w * r) n).symm]
        rfl
  rw [hfold w le_rfl, Jmid_last w r hr]

/-- The graph after `cast_on k` has been run for `k` loops. -/
def Jcast (k : Nat) : Knit_Graph :=
  { nodes := (List.range k).map (fun i => (i, (⟨i, "yarn", []⟩ : Loop))),
    edges := [],
    last_loop_id := (k : Int) - 1,
    yarns := [("yarn", ⟨"yarn", List.range k⟩)] }

theorem add_loop_to_end_Jcast (k : Nat) :
    (Jcast k).add_loop_to_end "yarn" = some (k, ⟨k, "yarn", []⟩, Jcast (k + 1)) := by
  have hkeys : k ∉ (Jcast k).nodes.map Prod.fst := by
    intro hmem
    obtain ⟨e, he, hei⟩ := List.mem_map.mp hmem
    obtain ⟨m, hm, hme⟩ := List.mem_map.mp he
    rw [← hme] at hei
    simp only at hei
    subst hei
    exact absurd (List.mem_range.mp hm) (lt_irrefl _)
  have h := add_loop_to_end_generic (Jcast k) k (List.range k) rfl rfl hkeys
  rw [h]
  unfold Jcast
  have hl : ((k + 1 : Nat) : Int) - 1 = (k : Int) := by push_cast; ring
  rw [hl]
  rw [show List.range (k + 1) = List.range k ++ [k] from by rw [List.range_succ],
    List.map_append]
  rfl

theorem cast_on_eq (w : Nat) : cast_on w = some (Jcast w, List.range w) := by
  unfold cast_on
  have h0 : Knit_Graph.init.add_yarn ⟨"yarn", []⟩ = Jcast 0 := by
    unfold Knit_Graph.init Knit_Graph.add_yarn Jcast
    simp [updateAssoc]
  have hfold : ∀ k, (List.range k).foldlM
      (fun (kg : Knit_Graph) _ => (kg.add_loop_to_end "yarn").map (fun r => r.2.2))
      (Jcast 0) = some (Jcast k) := by
    intro k
    induction k with
    | zero => rfl
    | succ n ih =>
        rw [List.range_succ, List.foldlM_append, ih]
        simp only [Option.bind_eq_bind, Option.some_bind]
        rw [List.foldlM_cons, add_loop_to_end_Jcast n]
        rfl
  rw [h0]
  simp only [hfold w]
  simp only [Option.bind_eq_bind, Option.some_bind]
  show (findAssoc "yarn" (Jcast w).yarns).map _ = _
  unfold Jcast
  simp [findAssoc]

theorem Jcast_eq_J1 (w : Nat) : Jcast w = J w 1 := by
  unfold Jcast J
  simp only [Knit_Graph.mk.injEq]
  refine ⟨?_, ?_, ?_, ?_⟩
  · rw [mul_one]
    apply List.map_congr_left
    intro i hi
    unfold loopJ
    rw [if_pos (List.mem_range.mp hi)]
  · rfl
  · simp
  · rw [mul_one]

theorem jersey_knit_eq (w h : Nat) (hw : 1 ≤ w) (hh : 1 ≤ h) :
    jersey_knit w h = some (J w h) := by
  unfold jersey_knit
  rw [cast_on_eq w]
  simp only [Option.bind_eq_bind, Option.some_bind]
  have hfold : ∀ k, k ≤ h - 1 →
      (List.range k).foldlM (fun (t : Knit_Graph × List Nat) _ => jerseyRow t.1 t.2)
        (Jcast w, List.range w) = some (J w (k + 1), List.range' (w * k) w) := by
    intro k
    induction k with
    | zero =>
        intro _
        rw [show ((Jcast w, List.range w) : Knit_Graph × List Nat) =
          (J w 1, List.range' (w * 0) w) from by rw [Jcast_eq_J1, List.range_eq_range']; rfl]
        rfl
    | succ n ih =>
        intro hk
        rw [List.range_succ, List.foldlM_append, ih (by omega)]
        simp only [Option.bind_eq_bind, Option.some_bind]
        rw [List.foldlM_cons]
        show (jerseyRow (J w (n + 1)) (List.range' (w * n) w)) >>= _ = _
        rw [show (List.range' (w * n) w) = (List.range' (w * ((n + 1) - 1)) w) from rfl]
        rw [jerseyRow_J w (n + 1) hw (by omega)]
        rfl
  rw [hfold (h - 1) le_rfl]
  rw [show h - 1 + 1 = h from by omega]
  rfl

theorem get_courses_J (w h : Nat) (hw : 1 ≤ w) (hh : 1 ≤ h) :
    ∃ cs, (J w h).get_courses = some cs ∧
      cs.map Course.loops_by_id_in_order =
        (List.range h).map (fun r => List.range' (w * r) w) := by
  obtain ⟨cs, hcs, horder, _⟩ := get_courses_spec (J w h) (J_WF w h hw)
  refine ⟨cs, hcs, ?_⟩
  rw [horder]
  have hkeys : (J w h).nodes.map (fun e => e.1) = List.range (w * h) := by
    unfold J
    rw [List.map_map]
    exact List.map_id' _
  rw [hkeys]
  have hsorted : List.Sorted (· ≤ ·) (List.range (w * h)) :=
    (List.pairwise_lt_range _).imp le_of_lt
  rw [List.Sorted.insertionSort_eq hsorted]
  unfold coursePartition
  rw [scanJ w h hw h hh le_rfl]
  have hparts : (List.range h).map (fun r => List.range' (w * r) w) =
      (List.range (h - 1)).map (fun r => List.range' (w * r) w) ++
        [List.range' (w * (h - 1)) w] := by
    conv_lhs => rw [show h = (h - 1) + 1 from by omega]
    rw [List.range_succ, List.map_append]
    rfl
  rw [hparts]

/-- **C8**: for every width `w ≥ 1` and height `h ≥ 1`, the graph built by
casting on `w` loops and then adding `h - 1` plain rows, each row
connecting every loop of the prior row to exactly one new loop (as
`jersey_knit` does), yields `get_courses()` returning exactly `h` `Course`
objects, each containing exactly `w` loops. -/
theorem jersey_knit_courses (w h : Nat) (hw : 1 ≤ w) (hh : 1 ≤ h) :
    ∃ kg cs, jersey_knit w h = some kg ∧ kg.get_courses = some cs ∧
      cs.length = h ∧ ∀ c ∈ cs, c.loops_by_id_in_order.length = w := by
  obtain ⟨cs, hcs, horder⟩ := get_courses_J w h hw hh
  refine ⟨J w h, cs, jersey_knit_eq w h hw hh, hcs, ?_, ?_⟩
  · have hlen := congrArg List.length horder
    simpa using hlen
  · intro c hc
    have hmem : c.loops_by_id_in_order ∈
        (List.range h).map (fun r => List.range' (w * r) w) := by
      rw [← horder]
      exact List.mem_map_of_mem _ hc
    obtain ⟨r, _, hr⟩ := List.mem_map.mp hmem
    rw [← hr]
    exact List.length_range' _ _ _

theorem jersey_knit_courses_witness :
    1 ≤ 2 ∧ ∃ kg cs, jersey_knit 2 2 = some kg ∧ kg.get_courses = some cs ∧
      cs.length = 2 ∧ ∀ c ∈ cs, c.loops_by_id_in_order.length = 2 :=
  ⟨by decide, jersey_knit_courses 2 2 (by decide) (by decide)⟩
